import Mathlib

/-!
Verification of the Kudu maintenance-manager scheduler
(src/kudu/tablet/maintenance_manager.h and its test suite).

The header declares the data model (`MaintenanceOpStats`, `MaintenanceOp`,
`MaintenanceOpComparator`, `CompletedOp`, `MaintenanceManager`); the bodies of
`FindBestOp`, `RunSchedulerThread`, `LaunchOp`, `RegisterOp` and
`UnregisterOp` are not part of the sources, so those are modelled from the
spec where a claim needs them, as noted on each definition.
-/

namespace KuduMaint

/-- Embedding of `struct MaintenanceOpStats` (maintenance_manager.h:30-51).
The C++ field types are `bool runnable`, `uint64_t ram_anchored`,
`int32_t ts_anchored_secs` and `double perf_improvement`; `ram_anchored` is
modelled as `Nat`, `ts_anchored_secs` as the mathematical integer stored in
the field (the 32-bit store semantics is made explicit in
`storeTsAnchoredSecs` below) and the floating-point score is idealized as
`Rat`. -/
structure MaintenanceOpStats where
  runnable : Bool
  ram_anchored : Nat
  ts_anchored_secs : Int
  perf_improvement : Rat
deriving DecidableEq

/-- One entry of the manager's `ops_` map (`OpMapTy`,
maintenance_manager.h:157-158): a registered op, identified by its unique
name (maintenance_manager.h:96-97), together with its latest stats
snapshot. -/
structure OpSnapshot where
  name : String
  stats : MaintenanceOpStats
deriving DecidableEq

/-- Executable lexicographic comparison of char lists, the order
`std::string::compare` induces on op names (byte order on the code points;
maintenance_manager.h:113). -/
def charListLt : List Char → List Char → Bool
  | [], [] => false
  | [], _ :: _ => true
  | _ :: _, [] => false
  | a :: as, b :: bs =>
    if a < b then true else if b < a then false else charListLt as bs

/-- Executable strict lexicographic order on op names. -/
def nameLt (a b : String) : Bool := charListLt a.data b.data

theorem charListLt_lex_iff : ∀ as bs : List Char,
    charListLt as bs = true ↔ List.Lex (· < ·) as bs := by
  intro as
  induction as with
  | nil =>
    intro bs
    cases bs with
    | nil =>
      constructor
      · intro h; exact absurd h (by simp [charListLt])
      · intro h; cases h
    | cons b bs =>
      constructor
      · intro _; exact List.Lex.nil
      · intro _; rfl
  | cons a as ih =>
    intro bs
    cases bs with
    | nil =>
      constructor
      · intro h; exact absurd h (by simp [charListLt])
      · intro h; cases h
    | cons b bs =>
      simp only [charListLt]
      by_cases hab : a < b
      · rw [if_pos hab]
        constructor
        · intro _; exact List.Lex.rel hab
        · intro _; rfl
      · rw [if_neg hab]
        by_cases hba : b < a
        · rw [if_pos hba]
          constructor
          · intro h; exact absurd h (by simp)
          · intro h
            cases h with
            | rel h => exact absurd h hab
            | cons h => exact absurd hba (lt_irrefl a)
        · rw [if_neg hba]
          rw [ih bs]
          have hba' : a = b := le_antisymm (not_lt.mp hba) (not_lt.mp hab)
          subst hba'
          constructor
          · intro h; exact List.Lex.cons h
          · intro h
            cases h with
            | rel h => exact absurd h hab
            | cons h => exact h

theorem nameLt_iff (a b : String) : nameLt a b = true ↔ a < b := by
  rw [String.lt_iff_toList_lt]
  exact charListLt_lex_iff a.data b.data

/-- Modelled from the spec: one comparison step of the
argmax-with-name-tie-break used by every branch of the selection policy
(§4.2 "Selection policy").  The candidate `o` replaces the incumbent only
when its key is strictly larger, or the keys tie and its name is strictly
smaller ("Ties broken by op name (ascending, deterministic)"). -/
def betterOp {K : Type} [LinearOrder K] (key : OpSnapshot → K)
    (o : OpSnapshot) : Option OpSnapshot → Option OpSnapshot
  | none => some o
  | some b =>
    if key b < key o ∨ (key b = key o ∧ nameLt o.name b.name = true) then
      some o
    else some b

/-- Modelled from the spec: select, from a list of snapshots, the op with the
largest `key`, ties broken by ascending op name (§4.2 "Selection policy"). -/
def pickBest {K : Type} [LinearOrder K] (key : OpSnapshot → K) :
    List OpSnapshot → Option OpSnapshot
  | [] => none
  | o :: os => betterOp key o (pickBest key os)

theorem pickBest_eq_none_iff {K : Type} [LinearOrder K] (key : OpSnapshot → K)
    (l : List OpSnapshot) : pickBest key l = none ↔ l = [] := by
  cases l with
  | nil => simp [pickBest]
  | cons o os =>
    simp only [pickBest]
    cases h : pickBest key os with
    | none => simp [betterOp]
    | some b =>
      simp only [betterOp]
      split <;> simp

theorem pickBest_mem {K : Type} [LinearOrder K] (key : OpSnapshot → K)
    (l : List OpSnapshot) (b : OpSnapshot) (h : pickBest key l = some b) :
    b ∈ l := by
  induction l generalizing b with
  | nil => simp [pickBest] at h
  | cons o os ih =>
    simp only [pickBest] at h
    cases h' : pickBest key os with
    | none =>
      rw [h'] at h
      simp only [betterOp, Option.some.injEq] at h
      simp [h]
    | some b' =>
      rw [h'] at h
      simp only [betterOp] at h
      split at h
      · simp only [Option.some.injEq] at h
        simp [h]
      · simp only [Option.some.injEq] at h
        exact List.mem_cons_of_mem _ (h ▸ ih b' h')

theorem pickBest_le {K : Type} [LinearOrder K] (key : OpSnapshot → K)
    (l : List OpSnapshot) (b : OpSnapshot) (h : pickBest key l = some b) :
    ∀ o ∈ l, key o ≤ key b := by
  induction l generalizing b with
  | nil => simp [pickBest] at h
  | cons o os ih =>
    simp only [pickBest] at h
    cases h' : pickBest key os with
    | none =>
      rw [h'] at h
      simp only [betterOp, Option.some.injEq] at h
      rw [pickBest_eq_none_iff] at h'
      subst h'
      subst h
      simp
    | some b' =>
      rw [h'] at h
      simp only [betterOp] at h
      split at h
      · rename_i hcond
        simp only [Option.some.injEq] at h
        subst h
        intro x hx
        rcases List.mem_cons.mp hx with hx | hx
        · exact le_of_eq (congrArg key hx)
        · have hxb' := ih b' h' x hx
          rcases hcond with hlt | ⟨heq, _⟩
          · exact le_trans hxb' (le_of_lt hlt)
          · exact le_trans hxb' (le_of_eq heq)
      · rename_i hcond
        simp only [Option.some.injEq] at h
        subst h
        push_neg at hcond
        intro x hx
        rcases List.mem_cons.mp hx with hx | hx
        · subst hx
          exact hcond.1
        · exact ih _ h' x hx

theorem pickBest_name {K : Type} [LinearOrder K] (key : OpSnapshot → K)
    (l : List OpSnapshot) (b : OpSnapshot) (h : pickBest key l = some b) :
    ∀ o ∈ l, key o = key b → b.name ≤ o.name := by
  induction l generalizing b with
  | nil => simp [pickBest] at h
  | cons o os ih =>
    simp only [pickBest] at h
    cases h' : pickBest key os with
    | none =>
      rw [h'] at h
      simp only [betterOp, Option.some.injEq] at h
      rw [pickBest_eq_none_iff] at h'
      subst h'
      subst h
      intro x hx
      simp only [List.mem_singleton] at hx
      subst hx
      intro
      exact le_refl _
    | some b' =>
      rw [h'] at h
      simp only [betterOp] at h
      split at h
      · rename_i hcond
        simp only [Option.some.injEq] at h
        subst h
        intro x hx hkey
        rcases List.mem_cons.mp hx with hx | hx
        · subst hx; exact le_refl _
        · have hxle := pickBest_le key os b' h' x hx
          rcases hcond with hlt | ⟨heq, hname⟩
          · exact absurd (hkey ▸ hxle) (not_le.mpr hlt)
          · have hx' : key x = key b' := le_antisymm hxle (heq ▸ hkey.symm ▸ le_refl _)
            exact le_trans (le_of_lt ((nameLt_iff _ _).mp hname)) (ih b' h' x hx hx')
      · rename_i hcond
        simp only [Option.some.injEq] at h
        subst h
        push_neg at hcond
        intro x hx hkey
        rcases List.mem_cons.mp hx with hx | hx
        · subst hx
          have hnl := hcond.2 hkey.symm
          exact not_lt.mp (fun hlt => hnl ((nameLt_iff _ _).mpr hlt))
        · exact ih _ h' x hx hkey

/-- The ops eligible for selection on a tick: "Only ops with
`runnable == true` are eligible" (spec §4.2). -/
def eligibleOps (ops : List OpSnapshot) : List OpSnapshot :=
  ops.filter (fun o => o.stats.runnable)

/-- Modelled from the spec: `MaintenanceManager::FindBestOp` is declared at
maintenance_manager.h:165-166 ("find the best op, or null if there is nothing
we want to run") but its body is not part of the sources; the three-branch
selection policy follows spec §4.2 "Selection policy": (1) if any eligible op
has `ts_anchored_secs ≥ max_ts_anchored_secs`, pick the largest
`ts_anchored_secs`; (2) otherwise under memory pressure pick the largest
`ram_anchored`; (3) otherwise pick the largest strictly positive
`perf_improvement`, or none.  All ties break to the ascending op name. -/
def FindBestOp (maxTs : Int) (underPressure : Bool)
    (ops : List OpSnapshot) : Option OpSnapshot :=
  let eligible := eligibleOps ops
  if eligible.any (fun o => decide (maxTs ≤ o.stats.ts_anchored_secs)) then
    pickBest (fun o => o.stats.ts_anchored_secs) eligible
  else if underPressure then
    pickBest (fun o => o.stats.ram_anchored) eligible
  else
    pickBest (fun o => o.stats.perf_improvement)
      (eligible.filter (fun o => decide (0 < o.stats.perf_improvement)))

theorem mem_eligibleOps {ops : List OpSnapshot} {o : OpSnapshot} :
    o ∈ eligibleOps ops ↔ o ∈ ops ∧ o.stats.runnable = true := by
  simp [eligibleOps]

/-- C1: on any tick where some runnable op's `ts_anchored_secs` has reached
`max_ts_anchored_secs`, `FindBestOp` returns a runnable registered op whose
`ts_anchored_secs` is at least the threshold and maximal among all runnable
ops, irrespective of every op's `perf_improvement` and of memory pressure. -/
theorem findBestOp_retention_trigger
    (maxTs : Int) (p : Bool) (ops : List OpSnapshot) (x : OpSnapshot)
    (hx : x ∈ ops) (hrun : x.stats.runnable = true)
    (hts : maxTs ≤ x.stats.ts_anchored_secs) :
    ∃ b, FindBestOp maxTs p ops = some b ∧ b ∈ ops ∧ b.stats.runnable = true ∧
      maxTs ≤ b.stats.ts_anchored_secs ∧
      ∀ o ∈ ops, o.stats.runnable = true →
        o.stats.ts_anchored_secs ≤ b.stats.ts_anchored_secs := by
  have hxE : x ∈ eligibleOps ops := mem_eligibleOps.mpr ⟨hx, hrun⟩
  have hany : (eligibleOps ops).any
      (fun o => decide (maxTs ≤ o.stats.ts_anchored_secs)) = true :=
    List.any_eq_true.mpr ⟨x, hxE, decide_eq_true hts⟩
  have hne : eligibleOps ops ≠ [] := List.ne_nil_of_mem hxE
  cases hpb : pickBest (fun o => o.stats.ts_anchored_secs) (eligibleOps ops) with
  | none => exact absurd ((pickBest_eq_none_iff _ _).mp hpb) hne
  | some b =>
    refine ⟨b, ?_, ?_, ?_, ?_, ?_⟩
    · simp only [FindBestOp]
      rw [if_pos hany]
      exact hpb
    · exact (mem_eligibleOps.mp (pickBest_mem _ _ _ hpb)).1
    · exact (mem_eligibleOps.mp (pickBest_mem _ _ _ hpb)).2
    · exact le_trans hts (pickBest_le _ _ _ hpb x hxE)
    · intro o ho hor
      exact pickBest_le _ _ _ hpb o (mem_eligibleOps.mpr ⟨ho, hor⟩)

/-- C2: on any tick where no runnable op reaches the log-retention threshold
but the manager is under memory pressure, `FindBestOp` returns a runnable
registered op whose `ram_anchored` is maximal among all runnable ops — with
no condition whatsoever on its `perf_improvement` (it may be 0). -/
theorem findBestOp_memory_pressure
    (maxTs : Int) (ops : List OpSnapshot) (x : OpSnapshot)
    (hx : x ∈ ops) (hrun : x.stats.runnable = true)
    (hnotr : ∀ o ∈ ops, o.stats.runnable = true →
      o.stats.ts_anchored_secs < maxTs) :
    ∃ b, FindBestOp maxTs true ops = some b ∧ b ∈ ops ∧
      b.stats.runnable = true ∧
      ∀ o ∈ ops, o.stats.runnable = true →
        o.stats.ram_anchored ≤ b.stats.ram_anchored := by
  have hxE : x ∈ eligibleOps ops := mem_eligibleOps.mpr ⟨hx, hrun⟩
  have hany : (eligibleOps ops).any
      (fun o => decide (maxTs ≤ o.stats.ts_anchored_secs)) = false := by
    rw [List.any_eq_false]
    intro o hoE
    have ho := mem_eligibleOps.mp hoE
    simpa using not_le.mpr (hnotr o ho.1 ho.2)
  have hne : eligibleOps ops ≠ [] := List.ne_nil_of_mem hxE
  cases hpb : pickBest (fun o => o.stats.ram_anchored) (eligibleOps ops) with
  | none => exact absurd ((pickBest_eq_none_iff _ _).mp hpb) hne
  | some b =>
    refine ⟨b, ?_, ?_, ?_, ?_⟩
    · simp only [FindBestOp]
      rw [if_neg (by simp [hany])]
      simpa using hpb
    · exact (mem_eligibleOps.mp (pickBest_mem _ _ _ hpb)).1
    · exact (mem_eligibleOps.mp (pickBest_mem _ _ _ hpb)).2
    · intro o ho hor
      exact pickBest_le _ _ _ hpb o (mem_eligibleOps.mpr ⟨ho, hor⟩)

/-- C3: with neither the log-retention trigger nor memory pressure in force,
the performance path considers exactly the runnable ops with strictly
positive `perf_improvement` and selects the one with the largest: (1) if any
runnable op has `perf_improvement > 0`, some op is selected; (2) any
selected op is a runnable registered op with strictly positive
`perf_improvement`, maximal among runnable ops; (3) if no runnable op has
strictly positive `perf_improvement`, `FindBestOp` returns none (an op
reporting exactly 0 is never chosen absent pressure). -/
theorem findBestOp_perf_path
    (maxTs : Int) (ops : List OpSnapshot)
    (hnotr : ∀ o ∈ ops, o.stats.runnable = true →
      o.stats.ts_anchored_secs < maxTs) :
    (∀ x ∈ ops, x.stats.runnable = true → 0 < x.stats.perf_improvement →
      ∃ b, FindBestOp maxTs false ops = some b)
    ∧ (∀ b, FindBestOp maxTs false ops = some b →
      b ∈ ops ∧ b.stats.runnable = true ∧ 0 < b.stats.perf_improvement ∧
        ∀ o ∈ ops, o.stats.runnable = true →
          o.stats.perf_improvement ≤ b.stats.perf_improvement)
    ∧ ((∀ o ∈ ops, o.stats.runnable = true →
          o.stats.perf_improvement ≤ 0) →
        FindBestOp maxTs false ops = none) := by
  have hany : (eligibleOps ops).any
      (fun o => decide (maxTs ≤ o.stats.ts_anchored_secs)) = false := by
    rw [List.any_eq_false]
    intro o hoE
    have ho := mem_eligibleOps.mp hoE
    simpa using not_le.mpr (hnotr o ho.1 ho.2)
  have hunfold : FindBestOp maxTs false ops =
      pickBest (fun o => o.stats.perf_improvement)
        ((eligibleOps ops).filter
          (fun o => decide (0 < o.stats.perf_improvement))) := by
    simp only [FindBestOp]
    rw [if_neg (by simp [hany]), if_neg (by simp)]
  refine ⟨?_, ?_, ?_⟩
  · intro x hx hxr hxp
    have hxF : x ∈ (eligibleOps ops).filter
        (fun o => decide (0 < o.stats.perf_improvement)) :=
      List.mem_filter.mpr
        ⟨mem_eligibleOps.mpr ⟨hx, hxr⟩, decide_eq_true hxp⟩
    rw [hunfold]
    cases hpb : pickBest (fun o => o.stats.perf_improvement)
        ((eligibleOps ops).filter
          (fun o => decide (0 < o.stats.perf_improvement))) with
    | none =>
      exact absurd ((pickBest_eq_none_iff _ _).mp hpb)
        (List.ne_nil_of_mem hxF)
    | some b => exact ⟨b, rfl⟩
  · intro b hb
    rw [hunfold] at hb
    have hbmem := pickBest_mem _ _ _ hb
    rw [List.mem_filter] at hbmem
    have hbE := mem_eligibleOps.mp hbmem.1
    have hbpos : 0 < b.stats.perf_improvement := of_decide_eq_true hbmem.2
    refine ⟨hbE.1, hbE.2, hbpos, ?_⟩
    intro o ho hor
    by_cases hop : 0 < o.stats.perf_improvement
    · exact pickBest_le _ _ _ hb o
        (List.mem_filter.mpr ⟨mem_eligibleOps.mpr ⟨ho, hor⟩, decide_eq_true hop⟩)
    · exact le_trans (not_lt.mp hop) (le_of_lt hbpos)
  · intro hall
    rw [hunfold, pickBest_eq_none_iff]
    rw [List.filter_eq_nil_iff]
    intro o hoE
    have ho := mem_eligibleOps.mp hoE
    simpa using not_lt.mpr (hall o ho.1 ho.2)

/-- C4: on whichever selection branch is in force, a runnable op that ties
with the selected op on that branch's criterion has a name no smaller than
the selected op's: clause 1 is the log-retention branch (equal
`ts_anchored_secs`), clause 2 the memory-pressure branch (equal
`ram_anchored`), clause 3 the performance branch (equal `perf_improvement`).
So the lexicographically smallest name wins every tie. -/
theorem findBestOp_tie_break_by_name (maxTs : Int) (ops : List OpSnapshot) :
    (∀ p b o, (∃ w ∈ ops, w.stats.runnable = true ∧
        maxTs ≤ w.stats.ts_anchored_secs) →
      FindBestOp maxTs p ops = some b → o ∈ ops → o.stats.runnable = true →
      o.stats.ts_anchored_secs = b.stats.ts_anchored_secs → b.name ≤ o.name)
    ∧ (∀ b o, (∀ w ∈ ops, w.stats.runnable = true →
        w.stats.ts_anchored_secs < maxTs) →
      FindBestOp maxTs true ops = some b → o ∈ ops → o.stats.runnable = true →
      o.stats.ram_anchored = b.stats.ram_anchored → b.name ≤ o.name)
    ∧ (∀ b o, (∀ w ∈ ops, w.stats.runnable = true →
        w.stats.ts_anchored_secs < maxTs) →
      FindBestOp maxTs false ops = some b → o ∈ ops → o.stats.runnable = true →
      o.stats.perf_improvement = b.stats.perf_improvement →
      b.name ≤ o.name) := by
  refine ⟨?_, ?_, ?_⟩
  · intro p b o hw hb ho hor heq
    obtain ⟨w, hwmem, hwrun, hwts⟩ := hw
    have hwE : w ∈ eligibleOps ops := mem_eligibleOps.mpr ⟨hwmem, hwrun⟩
    have hany : (eligibleOps ops).any
        (fun o => decide (maxTs ≤ o.stats.ts_anchored_secs)) = true :=
      List.any_eq_true.mpr ⟨w, hwE, decide_eq_true hwts⟩
    simp only [FindBestOp] at hb
    rw [if_pos hany] at hb
    exact pickBest_name _ _ _ hb o (mem_eligibleOps.mpr ⟨ho, hor⟩) heq
  · intro b o hnotr hb ho hor heq
    have hany : (eligibleOps ops).any
        (fun o => decide (maxTs ≤ o.stats.ts_anchored_secs)) = false := by
      rw [List.any_eq_false]
      intro w hwE
      have hw := mem_eligibleOps.mp hwE
      simpa using not_le.mpr (hnotr w hw.1 hw.2)
    simp only [FindBestOp] at hb
    rw [if_neg (by simp [hany])] at hb
    simp only [if_pos] at hb
    exact pickBest_name _ _ _ hb o (mem_eligibleOps.mpr ⟨ho, hor⟩) heq
  · intro b o hnotr hb ho hor heq
    have hany : (eligibleOps ops).any
        (fun o => decide (maxTs ≤ o.stats.ts_anchored_secs)) = false := by
      rw [List.any_eq_false]
      intro w hwE
      have hw := mem_eligibleOps.mp hwE
      simpa using not_le.mpr (hnotr w hw.1 hw.2)
    simp only [FindBestOp] at hb
    rw [if_neg (by simp [hany]), if_neg (by simp)] at hb
    have hbmem := pickBest_mem _ _ _ hb
    rw [List.mem_filter] at hbmem
    have hbpos : 0 < b.stats.perf_improvement := of_decide_eq_true hbmem.2
    have hopos : 0 < o.stats.perf_improvement := heq ▸ hbpos
    exact pickBest_name _ _ _ hb o
      (List.mem_filter.mpr ⟨mem_eligibleOps.mpr ⟨ho, hor⟩, decide_eq_true hopos⟩)
      heq

/-- The op `X` of spec scenario 6: `ts_anchored_secs = max_ts_anchored_secs
+ 1` (with `max_ts_anchored_secs = 1000`), `perf_improvement = 0`. -/
def opX : OpSnapshot := ⟨"X", ⟨true, 0, 1001, 0⟩⟩

/-- The op `Y` of spec scenario 6: `ts_anchored_secs = 0`,
`perf_improvement = 1000`. -/
def opY : OpSnapshot := ⟨"Y", ⟨true, 0, 0, 1000⟩⟩

/-- Witness for C1 at spec scenario 6: with `max_ts_anchored_secs = 1000`,
op `X` (`ts = 1001`, `perf = 0`) beats op `Y` (`ts = 0`, `perf = 1000`):
`FindBestOp` returns `X`. -/
theorem findBestOp_retention_trigger_witness :
    (∃ b, FindBestOp 1000 false [opX, opY] = some b ∧ b ∈ [opX, opY] ∧
      b.stats.runnable = true ∧ 1000 ≤ b.stats.ts_anchored_secs ∧
      ∀ o ∈ [opX, opY], o.stats.runnable = true →
        o.stats.ts_anchored_secs ≤ b.stats.ts_anchored_secs)
    ∧ FindBestOp 1000 false [opX, opY] = some opX :=
  ⟨findBestOp_retention_trigger 1000 false [opX, opY] opX (by decide)
    (by decide) (by decide), by decide⟩

/-- The op of test `MaintenanceManagerTest.TestMemoryPressure` after
`set_ram_anchored(1100)`: `perf_improvement = 0`, `ram_anchored = 1100`,
against `memory_limit = 1000`. -/
def opPressure : OpSnapshot := ⟨"op", ⟨true, 1100, 0, 0⟩⟩

/-- Witness for C2 at the `TestMemoryPressure` configuration: the runnable op
with `perf_improvement = 0` and `ram_anchored = 1100` is selected under
pressure. -/
theorem findBestOp_memory_pressure_witness :
    (∃ b, FindBestOp 1000 true [opPressure] = some b ∧ b ∈ [opPressure] ∧
      b.stats.runnable = true ∧
      ∀ o ∈ [opPressure], o.stats.runnable = true →
        o.stats.ram_anchored ≤ b.stats.ram_anchored)
    ∧ FindBestOp 1000 true [opPressure] = some opPressure :=
  ⟨findBestOp_memory_pressure 1000 [opPressure] opPressure (by decide)
    (by decide) (by decide), by decide⟩

/-- A zero-benefit runnable op: `perf_improvement = 0`, no pressure. -/
def opZeroPerf : OpSnapshot := ⟨"z", ⟨true, 100, 0, 0⟩⟩

/-- A runnable op with strictly positive `perf_improvement = 3`. -/
def opPosPerf : OpSnapshot := ⟨"p", ⟨true, 0, 0, 3⟩⟩

/-- Witness for C3: among a zero-perf op and a positive-perf op (no
retention trigger, no pressure) a selection occurs, it is exactly the
positive-perf op `p`, which is maximal; and with only the zero-perf op
registered, `FindBestOp` selects nothing. -/
theorem findBestOp_perf_path_witness :
    (∃ b, FindBestOp 1000 false [opZeroPerf, opPosPerf] = some b)
    ∧ FindBestOp 1000 false [opZeroPerf, opPosPerf] = some opPosPerf
    ∧ (opPosPerf ∈ [opZeroPerf, opPosPerf] ∧
        opPosPerf.stats.runnable = true ∧
        0 < opPosPerf.stats.perf_improvement ∧
        ∀ o ∈ [opZeroPerf, opPosPerf], o.stats.runnable = true →
          o.stats.perf_improvement ≤ opPosPerf.stats.perf_improvement)
    ∧ FindBestOp 1000 false [opZeroPerf] = none :=
  ⟨(findBestOp_perf_path 1000 [opZeroPerf, opPosPerf] (by decide)).1
     opPosPerf (by decide) (by decide) (by decide),
   by decide,
   (findBestOp_perf_path 1000 [opZeroPerf, opPosPerf] (by decide)).2.1
     opPosPerf (by decide),
   (findBestOp_perf_path 1000 [opZeroPerf] (by decide)).2.2 (by decide)⟩

/-- The op `A` of spec scenario 5: `perf_improvement = 5`,
`ram_anchored = 0`. -/
def opA : OpSnapshot := ⟨"A", ⟨true, 0, 0, 5⟩⟩

/-- The op `B` of spec scenario 5: identical stats to `A`. -/
def opB : OpSnapshot := ⟨"B", ⟨true, 0, 0, 5⟩⟩

/-- Witness for C4 at spec scenario 5: two runnable ops `B` and `A` with
identical `perf_improvement = 5` and `ram_anchored = 0`; `FindBestOp`
selects `A`, and the tie-break theorem yields `A.name ≤ B.name`. -/
theorem findBestOp_tie_break_by_name_witness :
    FindBestOp 1000 false [opB, opA] = some opA ∧ opA.name ≤ opB.name :=
  ⟨by decide,
   (findBestOp_tie_break_by_name 1000 [opB, opA]).2.2 opA opB (by decide)
     (by decide) (by decide) (by decide) (by decide)⟩

/-- Embedding of `struct CompletedOp` (maintenance_manager.h:117-122):
`name`, `duration_secs` (an `int`), `start_mono_time` (a monotonic clock
reading, abstracted to an integer). -/
structure CompletedOp where
  name : String
  duration_secs : Int
  start_mono_time : Int
deriving DecidableEq

/-- The completion-history ring: `buf` is the vector `completed_ops_`
(maintenance_manager.h:185), whose slots are `none` until first written, and
`count` is `completed_ops_count_` (maintenance_manager.h:186). -/
structure CompletionRing where
  buf : Array (Option CompletedOp)
  count : Nat
deriving DecidableEq

/-- The ring as constructed at `Init()`: `history_size` empty slots, count
0. -/
def CompletionRing.init (historySize : Nat) : CompletionRing :=
  { buf := Array.mkArray historySize none, count := 0 }

/-- Modelled from the spec (the writer runs in `LaunchOp`, whose body is not
part of the sources): "Elements need to be added at the
`completed_ops_count_ %` the vector's size and then the count needs to be
incremented" (maintenance_manager.h:183-185; spec §4.2 "Completion history
ring"). -/
def CompletionRing.add (r : CompletionRing) (c : CompletedOp) : CompletionRing :=
  { buf := r.buf.setD (r.count % r.buf.size) (some c), count := r.count + 1 }

/-- The number of completion entries currently stored in the ring. -/
def CompletionRing.storedEntries (r : CompletionRing) : Nat :=
  r.buf.toList.countP (fun e => e.isSome)

/-- C6: the completion-history ring has fixed capacity: an append keeps the
buffer size unchanged (the ring never shrinks or grows), writes the record
at slot `count % capacity`, and increments `count`; and the number of stored
entries never exceeds the capacity. -/
theorem completionRing_bounded (r : CompletionRing) (c : CompletedOp)
    (hcap : 0 < r.buf.size) :
    (r.add c).buf.size = r.buf.size
    ∧ (r.add c).count = r.count + 1
    ∧ ((r.add c).buf[r.count % r.buf.size]? = some (some c))
    ∧ r.storedEntries ≤ r.buf.size
    ∧ (r.add c).storedEntries ≤ r.buf.size := by
  have hsize : (r.add c).buf.size = r.buf.size := by
    simp [CompletionRing.add]
  refine ⟨hsize, rfl, ?_, ?_, ?_⟩
  · have hidx : r.count % r.buf.size < r.buf.size := Nat.mod_lt _ hcap
    exact Array.getElem?_setD_eq r.buf hidx (some c)
  · calc r.storedEntries ≤ r.buf.toList.length := List.countP_le_length _
      _ = r.buf.size := Array.length_toList
  · calc (r.add c).storedEntries ≤ (r.add c).buf.toList.length :=
        List.countP_le_length _
      _ = (r.add c).buf.size := Array.length_toList
      _ = r.buf.size := hsize

/-- The five completion records of test
`MaintenanceManagerTest.TestCompletedOpsHistory` (ops `op0` … `op4`,
`history_size = 4`). -/
def completedRec (n : String) : CompletedOp := ⟨n, 0, 0⟩

/-- The ring after the first four completions with capacity 4. -/
def ringAfter4 : CompletionRing :=
  ((((CompletionRing.init 4).add (completedRec "op0")).add
    (completedRec "op1")).add (completedRec "op2")).add (completedRec "op3")

/-- The ring after the fifth completion: slot `4 % 4 = 0` is overwritten. -/
def ringAfter5 : CompletionRing := ringAfter4.add (completedRec "op4")

/-- Witness for C6 at the `TestCompletedOpsHistory` scenario: after the fifth
completion with capacity 4, the buffer still has 4 slots, the count is 5,
the newest record `op4` sits at slot 0, the oldest record `op0` has been
overwritten (it appears nowhere in the ring), and the stored entries never
exceeded the capacity. -/
theorem completionRing_bounded_witness :
    (ringAfter5.buf.size = ringAfter4.buf.size
      ∧ ringAfter5.count = ringAfter4.count + 1
      ∧ (ringAfter5.buf[ringAfter4.count % ringAfter4.buf.size]? =
          some (some (completedRec "op4")))
      ∧ ringAfter4.storedEntries ≤ ringAfter4.buf.size
      ∧ ringAfter5.storedEntries ≤ ringAfter4.buf.size)
    ∧ ringAfter5.buf[0]? = some (some (completedRec "op4"))
    ∧ (∀ e ∈ ringAfter5.buf.toList, e ≠ some (completedRec "op0")) :=
  ⟨completionRing_bounded ringAfter4 (completedRec "op4") (by decide),
   by decide, by decide⟩

/-- Whether an op name is a key of the registered-op association list. -/
def isReg (l : List (String × Nat)) (n : String) : Bool :=
  l.any (fun p => p.1 == n)

/-- The `running_` count (maintenance_manager.h:99-100) recorded for op `n`,
0 if `n` is not registered. -/
def countOf (l : List (String × Nat)) (n : String) : Nat :=
  ((l.find? (fun p => p.1 == n)).map Prod.snd).getD 0

/-- Adjust op `n`'s running count by `f`, leaving every other entry
untouched. -/
def adjust (l : List (String × Nat)) (n : String) (f : Nat → Nat) :
    List (String × Nat) :=
  l.map (fun p => if p.1 == n then (p.1, f p.2) else p)

theorem isReg_adjust (l : List (String × Nat)) (n m : String) (f : Nat → Nat) :
    isReg (adjust l n f) m = isReg l m := by
  simp only [isReg, adjust, List.any_map]
  congr 1
  funext p
  by_cases h : p.1 == n <;> simp [h, Function.comp]

theorem countOf_adjust (l : List (String × Nat)) (n : String) (f : Nat → Nat)
    (h : isReg l n = true) : countOf (adjust l n f) n = f (countOf l n) := by
  induction l with
  | nil => simp [isReg] at h
  | cons p l ih =>
    by_cases hp : p.1 == n
    · simp [adjust, countOf, List.find?, hp]
    · have h' : isReg l n = true := by
        simp only [isReg, List.any_cons, hp, Bool.false_or] at h
        exact h
      have hadj : adjust (p :: l) n f = p :: adjust l n f := by
        simp only [adjust, List.map_cons]
        rw [if_neg hp]
      rw [hadj]
      show countOf (p :: adjust l n f) n = f (countOf (p :: l) n)
      simp only [countOf]
      rw [List.find?_cons_of_neg _ (by simpa using hp),
          List.find?_cons_of_neg _ (by simpa using hp)]
      exact ih h'

theorem isReg_filter_ne (l : List (String × Nat)) (n : String) :
    isReg (l.filter (fun p => p.1 != n)) n = false := by
  simp only [isReg, List.any_eq_false]
  intro p hp
  rw [List.mem_filter] at hp
  simpa using hp.2

/-- Modelled from the spec: the scheduler-visible manager state (spec §3
"Manager state").  `registered` is the `ops_` map restricted to what the
lifecycle claims observe — each registered op's unique name paired with its
`running_` count (maintenance_manager.h:99-100, guarded by the manager lock);
`runningOps` is `running_ops_` (maintenance_manager.h:179); `completed` the
completion-history ring; `numThreads` the worker-pool parallelism. -/
structure MMState where
  registered : List (String × Nat)
  runningOps : Nat
  completed : CompletionRing
  numThreads : Nat
deriving DecidableEq

def MMState.isRegistered (s : MMState) (n : String) : Bool :=
  isReg s.registered n

def MMState.runningCount (s : MMState) (n : String) : Nat :=
  countOf s.registered n

/-- The scheduler-visible events of an op's lifetime.  `dispatch n` is the
tick action that selects `n`, increments both counters and calls
`n.Prepare()` from the scheduler thread; `prepareFail n` is the abort path
taken when that `Prepare()` returned false; `performDone n rec` is a worker
finishing `n.Perform()` and recording `rec`; `unregister n` is
`UnregisterOp(n)` returning. -/
inductive MMEvent where
  | register (n : String)
  | updateStats (n : String)
  | dispatch (n : String)
  | prepareFail (n : String)
  | performDone (n : String) (rec : CompletedOp)
  | unregister (n : String)
deriving DecidableEq

/-- Modelled from the spec: the manager's transition relation (spec §4.2
"Public operations" and "Scheduling algorithm"; the bodies of `RegisterOp`,
`UnregisterOp`, `RunSchedulerThread` and `LaunchOp` are not part of the
sources).
* `register`: `RegisterOp` inserts an unregistered name with zeroed stats.
* `updateStats`: the tick polls a registered op under the lock.
* `dispatch`: only when a worker is free (`running_ops < num_threads`) may a
  registered op be selected; both counters are incremented before
  `Prepare()` runs.
* `prepareFail`: `Prepare()` returned false — both counters are decremented
  and no completion is recorded.
* `performDone`: `Perform()` finished — both counters are decremented and a
  completion record is appended to the ring.
* `unregister`: `UnregisterOp` waits on `unregister_cond` until the op's
  running count is 0, then removes it; it can only return in a state where
  the count is 0. -/
inductive MMStep : MMState → MMEvent → MMState → Prop where
  | register {s : MMState} {n : String} :
      s.isRegistered n = false →
      MMStep s (.register n) { s with registered := (n, 0) :: s.registered }
  | updateStats {s : MMState} {n : String} :
      s.isRegistered n = true →
      MMStep s (.updateStats n) s
  | dispatch {s : MMState} {n : String} :
      s.isRegistered n = true → s.runningOps < s.numThreads →
      MMStep s (.dispatch n)
        { s with registered := adjust s.registered n (· + 1),
                 runningOps := s.runningOps + 1 }
  | prepareFail {s : MMState} {n : String} :
      s.isRegistered n = true → 0 < s.runningCount n →
      MMStep s (.prepareFail n)
        { s with registered := adjust s.registered n (· - 1),
                 runningOps := s.runningOps - 1 }
  | performDone {s : MMState} {n : String} {rec : CompletedOp} :
      s.isRegistered n = true → 0 < s.runningCount n →
      MMStep s (.performDone n rec)
        { s with registered := adjust s.registered n (· - 1),
                 runningOps := s.runningOps - 1,
                 completed := s.completed.add rec }
  | unregister {s : MMState} {n : String} :
      s.isRegistered n = true → s.runningCount n = 0 →
      MMStep s (.unregister n)
        { s with registered := s.registered.filter (fun p => p.1 != n) }

/-- A finite run of the manager: `MMTrace s es s'` holds when the event
sequence `es` can take the manager from state `s` to state `s'`. -/
inductive MMTrace : MMState → List MMEvent → MMState → Prop where
  | nil {s : MMState} : MMTrace s [] s
  | cons {s s' s'' : MMState} {e : MMEvent} {es : List MMEvent} :
      MMStep s e s' → MMTrace s' es s'' → MMTrace s (e :: es) s''

/-- Whether an event is a scheduler-issued call (`UpdateStats`, `Prepare` via
dispatch, or `Perform`) on op `n`. -/
def MMEvent.callsOp (e : MMEvent) (n : String) : Bool :=
  match e with
  | .updateStats m => m == n
  | .dispatch m => m == n
  | .prepareFail m => m == n
  | .performDone m _ => m == n
  | _ => false

theorem step_preserves_unregistered {s s' : MMState} {e : MMEvent}
    {n : String} (hstep : MMStep s e s') (hreg : s.isRegistered n = false)
    (hne : e ≠ .register n) : s'.isRegistered n = false := by
  cases hstep with
  | register h =>
    rename_i m
    have hm : ¬(m == n) = true := by
      intro hmn
      exact hne (by rw [show m = n from by simpa using hmn])
    simpa [MMState.isRegistered, isReg, hm] using hreg
  | updateStats h => exact hreg
  | dispatch h1 h2 =>
    simpa [MMState.isRegistered, isReg_adjust] using hreg
  | prepareFail h1 h2 =>
    simpa [MMState.isRegistered, isReg_adjust] using hreg
  | performDone h1 h2 =>
    simpa [MMState.isRegistered, isReg_adjust] using hreg
  | unregister h1 h2 =>
    simp only [MMState.isRegistered, isReg, List.any_eq_false] at hreg ⊢
    intro p hp
    exact hreg p (List.mem_of_mem_filter hp)

theorem step_call_requires_registered {s s' : MMState} {e : MMEvent}
    {n : String} (hstep : MMStep s e s') (hcall : e.callsOp n = true) :
    s.isRegistered n = true := by
  cases hstep with
  | register h => simp [MMEvent.callsOp] at hcall
  | updateStats h =>
    rename_i m
    rwa [show m = n from by simpa [MMEvent.callsOp] using hcall] at h
  | dispatch h1 h2 =>
    rename_i m
    rwa [show m = n from by simpa [MMEvent.callsOp] using hcall] at h1
  | prepareFail h1 h2 =>
    rename_i m
    rwa [show m = n from by simpa [MMEvent.callsOp] using hcall] at h1
  | performDone h1 h2 =>
    rename_i m _
    rwa [show m = n from by simpa [MMEvent.callsOp] using hcall] at h1
  | unregister h1 h2 => simp [MMEvent.callsOp] at hcall

theorem trace_no_calls_on_unregistered {s s' : MMState} {n : String}
    {es : List MMEvent} (htr : MMTrace s es s')
    (hreg : s.isRegistered n = false) (hnoreg : MMEvent.register n ∉ es) :
    ∀ e ∈ es, e.callsOp n = false := by
  induction htr with
  | nil => simp
  | cons hstep htl ih =>
    rename_i s₀ s₁ s₂ e es'
    intro e' he'
    rcases List.mem_cons.mp he' with he' | he'
    · subst he'
      cases h : e'.callsOp n with
      | false => rfl
      | true =>
        exact absurd (step_call_requires_registered hstep h)
          (by simp [hreg])
    · have hne : e ≠ MMEvent.register n := by
        intro he
        exact hnoreg (he ▸ List.mem_cons_self e es')
      exact ih (step_preserves_unregistered hstep hreg hne)
        (fun hmem => hnoreg (List.mem_cons_of_mem _ hmem)) e' he'

/-- C5: `UnregisterOp(op)` can only return once `op`'s running count has
reached 0 (it blocks on `unregister_cond` until then), it removes `op` from
the registered-op map, and from then on — as long as `op` is not registered
again — no scheduler-issued `UpdateStats`, `Prepare` (dispatch) or `Perform`
call on `op` ever occurs, so the caller may safely destroy `op`. -/
theorem unregister_quiescence (s s₁ s₂ : MMState) (n : String)
    (es : List MMEvent) (hstep : MMStep s (.unregister n) s₁)
    (htr : MMTrace s₁ es s₂) (hnoreg : MMEvent.register n ∉ es) :
    s.runningCount n = 0 ∧ s₁.isRegistered n = false ∧
      ∀ e ∈ es, e.callsOp n = false := by
  cases hstep with
  | unregister h1 h2 =>
    refine ⟨h2, ?_, ?_⟩
    · exact isReg_filter_ne _ _
    · exact trace_no_calls_on_unregistered htr (isReg_filter_ne _ _) hnoreg

/-- A manager with two idle registered ops `b` and `c`, two workers. -/
def quiesceS0 : MMState :=
  ⟨[("b", 0), ("c", 0)], 0, CompletionRing.init 2, 2⟩

/-- `quiesceS0` after `UnregisterOp("b")` returns. -/
def quiesceS1 : MMState :=
  { quiesceS0 with
    registered := quiesceS0.registered.filter (fun p => p.1 != "b") }

/-- `quiesceS1` after a later tick polls `c` and `c` is unregistered too. -/
def quiesceS2 : MMState :=
  { quiesceS1 with
    registered := quiesceS1.registered.filter (fun p => p.1 != "c") }

/-- Witness for C5: after `UnregisterOp("b")` returns on `quiesceS0`, a
subsequent run that polls and unregisters the unrelated op `c` issues no
call on `b`. -/
theorem unregister_quiescence_witness :
    quiesceS0.runningCount "b" = 0 ∧ quiesceS1.isRegistered "b" = false ∧
      ∀ e ∈ [MMEvent.updateStats "c", MMEvent.unregister "c"],
        e.callsOp "b" = false :=
  unregister_quiescence quiesceS0 quiesceS1 quiesceS2 "b"
    [MMEvent.updateStats "c", MMEvent.unregister "c"]
    (MMStep.unregister (by decide) (by decide))
    (MMTrace.cons (MMStep.updateStats (by decide))
      (MMTrace.cons (MMStep.unregister (by decide) (by decide)) MMTrace.nil))
    (by decide)

/-- C7: when a dispatched op's `Prepare()` returns false, the abort path
restores the state: `running_ops` and the op's running count return to their
pre-dispatch values, no completion record is appended to the history ring,
and the op remains registered (so it stays eligible for re-selection on a
later tick). -/
theorem prepareFail_aborts_cleanly (s s₁ s₂ : MMState) (n : String)
    (hd : MMStep s (.dispatch n) s₁) (hf : MMStep s₁ (.prepareFail n) s₂) :
    s₂.runningOps = s.runningOps ∧ s₂.runningCount n = s.runningCount n ∧
      s₂.completed = s.completed ∧ s₂.isRegistered n = true := by
  cases hd with
  | dispatch h1 h2 =>
    cases hf with
    | prepareFail h3 h4 =>
      have h1' : isReg (adjust s.registered n (· + 1)) n = true := by
        rw [isReg_adjust]
        exact h1
      refine ⟨?_, ?_, rfl, ?_⟩
      · show s.runningOps + 1 - 1 = s.runningOps
        omega
      · show countOf (adjust (adjust s.registered n (· + 1)) n (· - 1)) n =
          countOf s.registered n
        rw [countOf_adjust _ _ _ h1', countOf_adjust _ _ _ h1]
        omega
      · show isReg (adjust (adjust s.registered n (· + 1)) n (· - 1)) n = true
        rw [isReg_adjust, isReg_adjust]
        exact h1

/-- A manager with one idle registered op `a` and two workers. -/
def abortS0 : MMState := ⟨[("a", 0)], 0, CompletionRing.init 2, 2⟩

/-- `abortS0` after op `a` is selected and dispatched (counters bumped,
`Prepare()` about to run). -/
def abortS1 : MMState :=
  { abortS0 with registered := adjust abortS0.registered "a" (· + 1),
                 runningOps := abortS0.runningOps + 1 }

/-- `abortS1` after `a.Prepare()` returned false and the dispatch was
aborted. -/
def abortS2 : MMState :=
  { abortS1 with registered := adjust abortS1.registered "a" (· - 1),
                 runningOps := abortS1.runningOps - 1 }

/-- Witness for C7: dispatching op `a` from `abortS0` and aborting on its
failed `Prepare()` restores the counters, appends nothing to the history,
and leaves `a` registered. -/
theorem prepareFail_aborts_cleanly_witness :
    abortS2.runningOps = abortS0.runningOps ∧
      abortS2.runningCount "a" = abortS0.runningCount "a" ∧
      abortS2.completed = abortS0.completed ∧
      abortS2.isRegistered "a" = true :=
  prepareFail_aborts_cleanly abortS0 abortS1 abortS2 "a"
    (MMStep.dispatch (by decide) (by decide))
    (MMStep.prepareFail (by decide) (by decide))

/-- Modelled from the spec: one pass of the scheduler's tick loop
(`RunSchedulerThread`, spec §4.2 steps 2-5; its body is not part of the
sources).  Returns the post-tick state, the stats snapshots polled on this
tick, and the op dispatched, if any.  Step 2: if `running_ops ≥
num_threads`, the pool is saturated — the tick polls no stats and dispatches
nothing.  Otherwise the tick polls every registered op and dispatches the op
`FindBestOp` selects, incrementing both counters. -/
def schedulerTick (maxTs : Int) (s : MMState) (snaps : List OpSnapshot)
    (underPressure : Bool) : MMState × List OpSnapshot × Option OpSnapshot :=
  if s.numThreads ≤ s.runningOps then (s, [], none)
  else
    (FindBestOp maxTs underPressure snaps).elim (s, snaps, none)
      (fun b =>
        ({ s with registered := adjust s.registered b.name (· + 1),
                  runningOps := s.runningOps + 1 }, snaps, some b))

theorem step_preserves_numThreads {s s' : MMState} {e : MMEvent}
    (hstep : MMStep s e s') : s'.numThreads = s.numThreads := by
  cases hstep <;> rfl

theorem step_preserves_bound {s s' : MMState} {e : MMEvent}
    (hstep : MMStep s e s') (hinv : s.runningOps ≤ s.numThreads) :
    s'.runningOps ≤ s'.numThreads := by
  cases hstep with
  | register h => exact hinv
  | updateStats h => exact hinv
  | dispatch h1 h2 => exact h2
  | prepareFail h1 h2 => exact le_trans (Nat.sub_le _ _) hinv
  | performDone h1 h2 => exact le_trans (Nat.sub_le _ _) hinv
  | unregister h1 h2 => exact hinv

theorem trace_preserves_bound {s s' : MMState} {es : List MMEvent}
    (htr : MMTrace s es s') :
    s.runningOps ≤ s.numThreads → s'.runningOps ≤ s'.numThreads := by
  induction htr with
  | nil => exact id
  | cons hstep htl ih => exact fun h => ih (step_preserves_bound hstep h)

/-- C8: in every state reachable from a state satisfying
`running_ops ≤ num_threads` (in particular from the initial state, where
`running_ops = 0`), the bound `running_ops ≤ num_threads` still holds; a
tick arriving at a saturated state polls no stats and dispatches no op; and
a tick never pushes `running_ops` above `num_threads`. -/
theorem running_ops_bounded (maxTs : Int) (s s' : MMState)
    (es : List MMEvent) (htr : MMTrace s es s')
    (hinv : s.runningOps ≤ s.numThreads) :
    s'.runningOps ≤ s'.numThreads
    ∧ (∀ snaps p, s'.numThreads ≤ s'.runningOps →
        schedulerTick maxTs s' snaps p = (s', [], none))
    ∧ (∀ snaps p,
        (schedulerTick maxTs s' snaps p).1.runningOps ≤ s'.numThreads) := by
  have hbound : s'.runningOps ≤ s'.numThreads := trace_preserves_bound htr hinv
  refine ⟨hbound, ?_, ?_⟩
  · intro snaps p hsat
    simp [schedulerTick, hsat]
  · intro snaps p
    by_cases hsat : s'.numThreads ≤ s'.runningOps
    · simpa [schedulerTick, hsat] using hbound
    · simp only [schedulerTick, if_neg hsat]
      cases hfb : FindBestOp maxTs p snaps with
      | none => exact hbound
      | some b => exact not_le.mp hsat

/-- A saturated manager: one worker, one op running. -/
def satState : MMState := ⟨[("a", 1)], 1, CompletionRing.init 2, 1⟩

/-- Witness for C8 at the saturated state `satState` (one worker, one
running op): the bound holds, a tick polls nothing and dispatches nothing,
and the tick leaves `running_ops` within the bound. -/
theorem running_ops_bounded_witness :
    satState.runningOps ≤ satState.numThreads
    ∧ schedulerTick 1000 satState [opA] true = (satState, [], none)
    ∧ (schedulerTick 1000 satState [opA] true).1.runningOps ≤
        satState.numThreads :=
  ⟨(running_ops_bounded 1000 satState satState [] MMTrace.nil (by decide)).1,
   (running_ops_bounded 1000 satState satState [] MMTrace.nil
      (by decide)).2.1 [opA] true (by decide),
   (running_ops_bounded 1000 satState satState [] MMTrace.nil
      (by decide)).2.2 [opA] true⟩

/-- The two's-complement store semantics of the C++ field
`MaintenanceOpStats::ts_anchored_secs`, declared `int32_t` at
maintenance_manager.h:43: assigning an integer keeps exactly the values in
`[-2^31, 2^31)` and wraps everything else modulo `2^32`. -/
def storeTsAnchoredSecs (v : Int) : Int :=
  (v + 2 ^ 31) % 2 ^ 32 - 2 ^ 31

/-- Counterexample to C9 as stated: `ts_anchored_secs` is not a 64-bit
signed integer.  `2^31` lies comfortably inside the `i64` range, yet
storing it in the field declared `int32_t` (maintenance_manager.h:43) wraps
it to `-2^31`. -/
theorem ts_anchored_secs_not_i64 :
    (2 ^ 31 : Int) < 2 ^ 63 ∧ storeTsAnchoredSecs (2 ^ 31) = -(2 ^ 31) ∧
      storeTsAnchoredSecs (2 ^ 31) ≠ (2 ^ 31 : Int) := by decide

/-- C9 (amended): `ts_anchored_secs` is a 32-bit signed integer (`int32_t`,
maintenance_manager.h:43): the field stores exactly the integers in
`[-2^31, 2^31)`, and every stored value lies in that range. -/
theorem ts_anchored_secs_is_i32 (v w : Int)
    (h₁ : -(2 ^ 31) ≤ v) (h₂ : v < 2 ^ 31) :
    storeTsAnchoredSecs v = v ∧
      -(2 ^ 31) ≤ storeTsAnchoredSecs w ∧ storeTsAnchoredSecs w < 2 ^ 31 := by
  refine ⟨?_, ?_, ?_⟩
  · have hlo : (0 : Int) ≤ v + 2 ^ 31 := by omega
    have hhi : v + 2 ^ 31 < 2 ^ 32 := by omega
    rw [storeTsAnchoredSecs, Int.emod_eq_of_lt hlo hhi]
    omega
  · have := Int.emod_nonneg (w + 2 ^ 31) (show (2 ^ 32 : Int) ≠ 0 by decide)
    rw [storeTsAnchoredSecs]
    omega
  · have := Int.emod_lt_of_pos (w + 2 ^ 31)
      (show (0 : Int) < 2 ^ 32 by decide)
    rw [storeTsAnchoredSecs]
    omega

/-- Witness for the amended C9: the value 7 (and the extremes of the `i32`
range) store exactly, and an arbitrary store lands in range. -/
theorem ts_anchored_secs_is_i32_witness :
    storeTsAnchoredSecs 7 = 7 ∧
      -(2 ^ 31) ≤ storeTsAnchoredSecs (2 ^ 40) ∧
      storeTsAnchoredSecs (2 ^ 40) < 2 ^ 31 :=
  ts_anchored_secs_is_i32 7 (2 ^ 40) (by decide) (by decide)

/-- A registered op as a map key: the C++ `OpMapTy` keys are
`MaintenanceOp*` pointers; an op object is identified by its address
(`addr`) and carries its name (`name_`, maintenance_manager.h:96-97). -/
structure MaintenanceOpKey where
  addr : Nat
  name : String
deriving DecidableEq

/-- Embedding of `struct MaintenanceOpComparator`
(maintenance_manager.h:110-115): `lhs->name().compare(rhs->name()) < 0`,
i.e. the comparator looks only at the ops' names, in lexicographic order. -/
def MaintenanceOpComparator (lhs rhs : MaintenanceOpKey) : Bool :=
  nameLt lhs.name rhs.name

/-- The ordering invariant `std::map` maintains for `OpMapTy`
(maintenance_manager.h:157-158): iteration yields the keys pairwise strictly
ordered by the comparator. -/
def opMapOrdered (l : List MaintenanceOpKey) : Prop :=
  l.Pairwise (fun a b => MaintenanceOpComparator a b = true)

/-- C10: the registered-op map is ordered by `MaintenanceOpComparator`,
which compares only names: (1) two keys are equivalent under the comparator
(neither orders before the other) precisely when their names are equal —
regardless of the op objects' addresses — so at most one op per name can be
present; (2) iterating any well-formed map yields strictly ascending names,
hence no duplicate name. -/
theorem opMap_ordered_by_name (a b : MaintenanceOpKey)
    (l : List MaintenanceOpKey) :
    (MaintenanceOpComparator a b = false ∧ MaintenanceOpComparator b a = false
      ↔ a.name = b.name)
    ∧ (opMapOrdered l →
        l.Pairwise (fun x y => x.name < y.name) ∧
          (l.map (fun k => k.name)).Nodup) := by
  constructor
  · constructor
    · intro ⟨h1, h2⟩
      have h1' : ¬ a.name < b.name := fun h =>
        by simp [MaintenanceOpComparator, (nameLt_iff _ _).mpr h] at h1
      have h2' : ¬ b.name < a.name := fun h =>
        by simp [MaintenanceOpComparator, (nameLt_iff _ _).mpr h] at h2
      exact le_antisymm (not_lt.mp h2') (not_lt.mp h1')
    · intro h
      constructor
      · rw [show MaintenanceOpComparator a b = nameLt a.name b.name from rfl]
        cases hc : nameLt a.name b.name with
        | false => rfl
        | true => exact absurd ((nameLt_iff _ _).mp hc) (h ▸ lt_irrefl _)
      · rw [show MaintenanceOpComparator b a = nameLt b.name a.name from rfl]
        cases hc : nameLt b.name a.name with
        | false => rfl
        | true => exact absurd ((nameLt_iff _ _).mp hc) (h ▸ lt_irrefl _)
  · intro hord
    have hnames : l.Pairwise (fun x y => x.name < y.name) :=
      hord.imp (fun h => (nameLt_iff _ _).mp h)
    refine ⟨hnames, ?_⟩
    exact List.Pairwise.map (fun k : MaintenanceOpKey => k.name)
      (fun a b h => ne_of_lt h) hnames

/-- Two distinct op objects (different addresses) sharing the name `x`, and
a well-formed three-entry map. -/
def opKeyP : MaintenanceOpKey := ⟨1, "x"⟩

/-- A second op object with the same name as `opKeyP` at another address. -/
def opKeyQ : MaintenanceOpKey := ⟨2, "x"⟩

/-- A concrete well-formed registered-op map with ascending names. -/
def opKeyMap : List MaintenanceOpKey := [⟨7, "a"⟩, ⟨3, "b"⟩, ⟨5, "c"⟩]

/-- Witness for C10: the two distinct objects `opKeyP`, `opKeyQ` with equal
names are equivalent under the comparator, and the concrete map `opKeyMap`
iterates in ascending name order with no duplicate name. -/
theorem opMap_ordered_by_name_witness :
    opKeyP.name = opKeyQ.name ∧
      (opKeyMap.Pairwise (fun x y => x.name < y.name) ∧
        (opKeyMap.map (fun k => k.name)).Nodup) :=
  ⟨(opMap_ordered_by_name opKeyP opKeyQ opKeyMap).1.mp ⟨by decide, by decide⟩,
   (opMap_ordered_by_name opKeyP opKeyQ opKeyMap).2 (by
     show opKeyMap.Pairwise (fun a b => MaintenanceOpComparator a b = true)
     decide)⟩

end KuduMaint
